import Mathlib

/-!
Shallow embedding of the C programs in `dataset/training_codes/` and proofs
of the specified properties.  Each loop is rendered as a structurally
recursive Lean function on an explicit fuel argument; the fuel supplied at
the call site provably dominates the number of iterations the C loop
performs, so the rendering computes exactly what the C loop computes.
C `int` values are modelled as `Int` (or `Nat` where the inputs at issue
are non-negative), C strings as `List Char`, and C `double` literals,
which are all exactly representable, as `ℚ`.
-/

namespace CodeOptimizer

/-! ## string_search.c -/

/-- Inner loop of `string_search` (string_search.c, lines 9-13): scans
`j` upward from its current value while `j < pattern_len`, breaking at the
first mismatching character.  Returns the final value of `j` together with
the number of character comparisons `text[i+j] != pattern[j]` executed.
Fuel `pattern.length - j` suffices, so the top-level call passes
`pattern.length`. -/
def innerLoop (text pattern : List Char) (i j : Nat) : Nat → Nat × Nat
  | 0 => (j, 0)
  | fuel + 1 =>
    if j < pattern.length then
      if text.getD (i + j) 'A' = pattern.getD j 'A' then
        let r := innerLoop text pattern i (j + 1) fuel
        (r.1, r.2 + 1)
      else (j, 1)
    else (j, 0)

/-- Outer loop of `string_search` (string_search.c, lines 8-16): tries each
candidate offset `i` while `i <= text_len - pattern_len` in C signed
arithmetic, returning `i` as soon as the inner loop ran through the whole
pattern, and `-1` once the guard fails.  Also accumulates the total number
of character comparisons.  Fuel `text.length + 1 - i` suffices (the guard
forces `i ≤ text.length`), so the top-level call passes
`text.length + 1`. -/
def outerLoop (text pattern : List Char) (i : Nat) : Nat → Int × Nat
  | 0 => (-1, 0)
  | fuel + 1 =>
    if (i : Int) ≤ (text.length : Int) - (pattern.length : Int) then
      let r := innerLoop text pattern i 0 pattern.length
      if r.1 = pattern.length then ((i : Int), r.2)
      else
        let s := outerLoop text pattern (i + 1) fuel
        (s.1, r.2 + s.2)
    else (-1, 0)

/-- C function `string_search(char* text, char* pattern)`
(string_search.c, lines 4-18): returned index, or `-1` when not found. -/
def string_search (text pattern : List Char) : Int :=
  (outerLoop text pattern 0 (text.length + 1)).1

/-- Number of character comparisons `text[i + j] != pattern[j]` that
`string_search` executes on the given input. -/
def string_search_comparisons (text pattern : List Char) : Nat :=
  (outerLoop text pattern 0 (text.length + 1)).2

/-- The line `main` of string_search.c writes to standard output
(modulo the trailing newline of `printf`). -/
def string_search_main_output : String :=
  "Pattern found at index: " ++
    toString (string_search "ABABDABACDABABCABCABCABCABC".toList "ABABCAB".toList)

/-- The pattern occurs in the text at offset `i`: the `pattern.length`
characters of the text starting at position `i` exist and coincide with
the pattern. -/
def occursAt (text pattern : List Char) (i : Nat) : Prop :=
  (text.drop i).take pattern.length = pattern

instance (text pattern : List Char) (i : Nat) :
    Decidable (occursAt text pattern i) := by
  unfold occursAt; infer_instance

/-! ## fibonacci_recursive.c -/

/-- C function `fibonacci(int n)` (fibonacci_recursive.c, lines 3-7):
`if (n <= 1) return n; return fibonacci(n-1) + fibonacci(n-2);`,
on the non-negative arguments `main` supplies. -/
def fibonacci : Nat → Nat
  | 0 => 0
  | 1 => 1
  | n + 2 => fibonacci (n + 1) + fibonacci n

/-- The accumulator computed by the loop in `main` of
fibonacci_recursive.c (lines 10-13): `result += fibonacci(i)` for
`i = 0, 1, ..., 19`. -/
def fib_main_result : Nat :=
  (List.range 20).foldl (fun result i => result + fibonacci i) 0

/-! ## polynomial_eval.c -/

/-- Loop of `polynomial` (polynomial_eval.c, lines 6-9): runs `i` from `0`
to `degree` inclusive, so exactly `degree + 1` iterations, accumulating
`result += coeffs[i] * power; power *= x`.  The doubles of the source are
modelled as exact rationals. -/
def polyLoop (x : ℚ) (coeffs : List ℚ) (i : Nat) (result power : ℚ) :
    Nat → ℚ
  | 0 => result
  | fuel + 1 =>
    polyLoop x coeffs (i + 1) (result + coeffs.getD i 0 * power) (power * x) fuel

/-- C function `polynomial(double x, double coeffs[], int degree)`
(polynomial_eval.c, lines 3-11), over exact rationals. -/
def polynomial (x : ℚ) (coeffs : List ℚ) (degree : Nat) : ℚ :=
  polyLoop x coeffs 0 0 1 (degree + 1)

/-! ## array_operations.c -/

/-- Loop of `find_max` (array_operations.c, lines 5-9): runs `i` from `1`
while `i < n`, replacing the running maximum whenever `arr[i] > max`.
Fuel `n - i` suffices; the top-level call passes `n`. -/
def findMaxLoop (arr : List Int) (n i : Nat) (max : Int) : Nat → Int
  | 0 => max
  | fuel + 1 =>
    if i < n then
      findMaxLoop arr n (i + 1) (if arr.getD i 0 > max then arr.getD i 0 else max) fuel
    else max

/-- C function `find_max(int arr[], int n)` (array_operations.c,
lines 3-11): starts from `max = arr[0]` and scans the rest. -/
def find_max (arr : List Int) (n : Nat) : Int :=
  findMaxLoop arr n 1 (arr.getD 0 0) n

/-! ## gcd_algorithm.c -/

/-- C function `gcd(int a, int b)` (gcd_algorithm.c, lines 3-10) on
non-negative inputs: the `while (b != 0)` loop replaces `(a, b)` by
`(b, a % b)`, and returns `a` once `b = 0`.  Total by well-founded
recursion on `b`, since `a % b < b` when `b ≠ 0`. -/
def gcd (a b : Nat) : Nat :=
  if h : b ≠ 0 then gcd b (a % b) else a
termination_by b
decreasing_by exact Nat.mod_lt a (Nat.pos_of_ne_zero h)

/-- The `while (b != 0)` loop of `gcd` run for at most `fuel` iterations:
`none` when the iteration budget is exhausted before the loop exits.
Witnesses termination of the loop when compared with `gcd`. -/
def gcdFuel : Nat → Nat → Nat → Option Nat
  | 0, _, _ => none
  | fuel + 1, a, b => if b ≠ 0 then gcdFuel fuel b (a % b) else some a

/-! ## new1.c and new2.c -/

/-- Loop of `sum_array_unoptimized` (new1.c, lines 5-8): `i` from `0`
while `i < size`, `sum += arr[i] * 1`.  Fuel `size - i` suffices. -/
def sumLoop (arr : List Int) (size i : Nat) (sum : Int) : Nat → Int
  | 0 => sum
  | fuel + 1 =>
    if i < size then sumLoop arr size (i + 1) (sum + arr.getD i 0 * 1) fuel
    else sum

/-- C function `sum_array_unoptimized(int *arr, int size)` (new1.c,
lines 3-10). -/
def sum_array_unoptimized (arr : List Int) (size : Nat) : Int :=
  sumLoop arr size 0 0 size

/-- First loop of `sum_array_optimized` (new2.c, lines 8-10): `i` advances
by 2 while `i < size - 1` in C signed arithmetic, adding
`arr[i] + arr[i+1]`.  Returns the sum so far and the final `i`.  Fuel
`size - i` suffices. -/
def sumUnrollLoop (arr : List Int) (size i : Nat) (sum : Int) :
    Nat → Int × Nat
  | 0 => (sum, i)
  | fuel + 1 =>
    if (i : Int) < (size : Int) - 1 then
      sumUnrollLoop arr size (i + 2) (sum + (arr.getD i 0 + arr.getD (i + 1) 0)) fuel
    else (sum, i)

/-- Second loop of `sum_array_optimized` (new2.c, lines 13-15): handles
the leftover element, `i` while `i < size`, `sum += arr[i]`. -/
def sumTailLoop (arr : List Int) (size i : Nat) (sum : Int) : Nat → Int
  | 0 => sum
  | fuel + 1 =>
    if i < size then sumTailLoop arr size (i + 1) (sum + arr.getD i 0) fuel
    else sum

/-- C function `sum_array_optimized(int *arr, int size)` (new2.c,
lines 3-18): the unrolled loop followed by the leftover loop, threading
`sum` and `i` between them. -/
def sum_array_optimized (arr : List Int) (size : Nat) : Int :=
  let r := sumUnrollLoop arr size 0 0 size
  sumTailLoop arr size r.2 r.1 size

/-! ## Helper lemmas -/

/-- The embedded `gcd` loop computes the mathematical greatest common
divisor. -/
theorem gcd_eq_natGcd (a b : Nat) : CodeOptimizer.gcd a b = Nat.gcd a b := by
  induction b using Nat.strong_induction_on generalizing a with
  | _ b ih =>
    rw [CodeOptimizer.gcd]
    by_cases hb : b = 0
    · subst hb; simp
    · rw [dif_pos hb, ih (a % b) (Nat.mod_lt a (Nat.pos_of_ne_zero hb)) b]
      calc Nat.gcd b (a % b) = Nat.gcd (a % b) b := Nat.gcd_comm _ _
        _ = Nat.gcd b a := (Nat.gcd_rec b a).symm
        _ = Nat.gcd a b := Nat.gcd_comm _ _

/-- Any iteration budget strictly larger than `b` lets the fuelled
rendering of the `while (b != 0)` loop run to completion. -/
theorem gcdFuel_correct (b : Nat) :
    ∀ a fuel, b < fuel → gcdFuel fuel a b = some (CodeOptimizer.gcd a b) := by
  induction b using Nat.strong_induction_on with
  | _ b ih =>
    intro a fuel hf
    match fuel, hf with
    | fuel + 1, _ =>
      rw [gcdFuel, CodeOptimizer.gcd]
      by_cases hb : b = 0
      · subst hb; simp
      · have hlt : a % b < b := Nat.mod_lt a (Nat.pos_of_ne_zero hb)
        rw [if_pos hb, dif_pos hb]
        exact ih (a % b) hlt b fuel (by omega)

/-- Invariant of the `find_max` scan: with enough fuel, the loop returns
either its incoming running maximum or an element of the unscanned
suffix, never decreases the running maximum, and dominates every element
of the unscanned suffix. -/
theorem findMaxLoop_spec (arr : List Int) :
    ∀ fuel i m, arr.length ≤ i + fuel →
    (findMaxLoop arr arr.length i m fuel = m ∨
      findMaxLoop arr arr.length i m fuel ∈ arr.drop i) ∧
    m ≤ findMaxLoop arr arr.length i m fuel ∧
    ∀ x ∈ arr.drop i, x ≤ findMaxLoop arr arr.length i m fuel := by
  intro fuel
  induction fuel with
  | zero =>
    intro i m hfuel
    rw [findMaxLoop]
    have hd : arr.drop i = [] := List.drop_eq_nil_of_le (by omega)
    simp [hd]
  | succ fuel ih =>
    intro i m hfuel
    rw [findMaxLoop]
    by_cases hi : i < arr.length
    · rw [if_pos hi]
      have hgetD : arr.getD i 0 = arr[i] := List.getD_eq_getElem arr 0 hi
      have hd : arr.drop i = arr[i] :: arr.drop (i + 1) :=
        List.drop_eq_getElem_cons hi
      obtain ⟨hmem, hmono, hdom⟩ :=
        ih (i + 1) (if arr.getD i 0 > m then arr.getD i 0 else m) (by omega)
      refine ⟨?_, ?_, ?_⟩
      · rcases hmem with he | he
        · rw [he]
          by_cases hc : arr.getD i 0 > m
          · right
            rw [if_pos hc, hgetD, hd]
            exact List.mem_cons_self _ _
          · left
            rw [if_neg hc]
        · right
          rw [hd]
          exact List.mem_cons_of_mem _ he
      · refine le_trans ?_ hmono
        by_cases hc : arr.getD i 0 > m
        · rw [if_pos hc]; omega
        · rw [if_neg hc]
      · intro x hx
        rw [hd] at hx
        rcases List.mem_cons.mp hx with he | he
        · refine le_trans ?_ hmono
          by_cases hc : arr.getD i 0 > m
          · rw [if_pos hc]; omega
          · rw [if_neg hc]; omega
        · exact hdom x he
    · rw [if_neg hi]
      have hd : arr.drop i = [] := List.drop_eq_nil_of_le (by omega)
      simp [hd]

/-- The loop of `sum_array_unoptimized` adds the sum of the unscanned
suffix to its accumulator, given enough fuel. -/
theorem sumLoop_spec (arr : List Int) :
    ∀ fuel i s, arr.length ≤ i + fuel →
    sumLoop arr arr.length i s fuel = s + (arr.drop i).sum := by
  intro fuel
  induction fuel with
  | zero =>
    intro i s hfuel
    rw [sumLoop, List.drop_eq_nil_of_le (by omega)]
    simp
  | succ fuel ih =>
    intro i s hfuel
    rw [sumLoop]
    by_cases hi : i < arr.length
    · rw [if_pos hi, ih (i + 1) _ (by omega),
        List.drop_eq_getElem_cons hi, List.sum_cons,
        List.getD_eq_getElem arr 0 hi]
      ring
    · rw [if_neg hi, List.drop_eq_nil_of_le (by omega)]
      simp

/-- The leftover loop of `sum_array_optimized` adds the sum of the
unscanned suffix to its accumulator, given enough fuel. -/
theorem sumTailLoop_spec (arr : List Int) :
    ∀ fuel i s, arr.length ≤ i + fuel →
    sumTailLoop arr arr.length i s fuel = s + (arr.drop i).sum := by
  intro fuel
  induction fuel with
  | zero =>
    intro i s hfuel
    rw [sumTailLoop, List.drop_eq_nil_of_le (by omega)]
    simp
  | succ fuel ih =>
    intro i s hfuel
    rw [sumTailLoop]
    by_cases hi : i < arr.length
    · rw [if_pos hi, ih (i + 1) _ (by omega),
        List.drop_eq_getElem_cons hi, List.sum_cons,
        List.getD_eq_getElem arr 0 hi]
      ring
    · rw [if_neg hi, List.drop_eq_nil_of_le (by omega)]
      simp

/-- The unrolled loop of `sum_array_optimized` preserves the quantity
"accumulator plus the sum of the unscanned suffix", given enough fuel. -/
theorem sumUnrollLoop_spec (arr : List Int) :
    ∀ fuel i s, arr.length ≤ i + fuel →
    (sumUnrollLoop arr arr.length i s fuel).1 +
      (arr.drop (sumUnrollLoop arr arr.length i s fuel).2).sum =
    s + (arr.drop i).sum := by
  intro fuel
  induction fuel with
  | zero =>
    intro i s _
    rw [sumUnrollLoop]
  | succ fuel ih =>
    intro i s hfuel
    rw [sumUnrollLoop]
    by_cases hg : (i : Int) < (arr.length : Int) - 1
    · have hi1 : i + 1 < arr.length := by omega
      have hi : i < arr.length := by omega
      rw [if_pos hg, ih (i + 2) _ (by omega),
        List.drop_eq_getElem_cons hi, List.sum_cons,
        List.drop_eq_getElem_cons hi1, List.sum_cons,
        List.getD_eq_getElem arr 0 hi, List.getD_eq_getElem arr 0 hi1]
      ring
    · rw [if_neg hg]

/-- Characterization of the inner comparison loop of `string_search`:
when the window `[i, i + pattern_len)` lies inside the text, the loop
runs `j` up to `pattern_len` exactly when the remaining pattern suffix
matches the text character for character. -/
theorem innerLoop_spec (text pattern : List Char) (i : Nat)
    (hiP : i + pattern.length ≤ text.length) :
    ∀ fuel j, j ≤ pattern.length → pattern.length ≤ j + fuel →
    ((innerLoop text pattern i j fuel).1 = pattern.length ↔
      (text.drop (i + j)).take (pattern.length - j) = pattern.drop j) := by
  intro fuel
  induction fuel with
  | zero =>
    intro j hj1 hj2
    have hj : j = pattern.length := by omega
    subst hj
    rw [innerLoop]
    simp [List.drop_length]
  | succ fuel ih =>
    intro j hj1 hj2
    rw [innerLoop]
    by_cases hj : j < pattern.length
    · rw [if_pos hj]
      have hij : i + j < text.length := by omega
      have hdt : text.drop (i + j) = text[i + j] :: text.drop (i + j + 1) :=
        List.drop_eq_getElem_cons hij
      have hdp : pattern.drop j = pattern[j] :: pattern.drop (j + 1) :=
        List.drop_eq_getElem_cons hj
      have hsub : pattern.length - j = (pattern.length - (j + 1)) + 1 := by omega
      have hgt : text.getD (i + j) 'A' = text[i + j] :=
        List.getD_eq_getElem text 'A' hij
      have hgp : pattern.getD j 'A' = pattern[j] :=
        List.getD_eq_getElem pattern 'A' hj
      have hadd : i + (j + 1) = i + j + 1 := rfl
      by_cases hc : text.getD (i + j) 'A' = pattern.getD j 'A'
      · rw [if_pos hc]
        rw [hgt, hgp] at hc
        show (innerLoop text pattern i (j + 1) fuel).1 = pattern.length ↔ _
        rw [ih (j + 1) (by omega) (by omega), hadd, hdt, hdp, hsub,
          List.take_succ_cons]
        constructor
        · intro h
          exact List.cons_eq_cons.mpr ⟨hc, h⟩
        · intro h
          exact (List.cons_eq_cons.mp h).2
      · rw [if_neg hc]
        rw [hgt, hgp] at hc
        show j = pattern.length ↔ _
        rw [hdt, hdp, hsub, List.take_succ_cons]
        constructor
        · intro h
          exact absurd h (by omega)
        · intro h
          exact absurd (List.cons_eq_cons.mp h).1 hc
    · have hj3 : j = pattern.length := by omega
      subst hj3
      rw [if_neg hj]
      simp [List.drop_length]

/-- An occurrence of a non-empty pattern at offset `k` forces the whole
window `[k, k + pattern_len)` to lie inside the text. -/
theorem occursAt_le (text pattern : List Char) (k : Nat) (hp : pattern ≠ [])
    (h : occursAt text pattern k) : k + pattern.length ≤ text.length := by
  have hP : 0 < pattern.length := List.length_pos.mpr hp
  have hlen := congrArg List.length h
  simp [List.length_take, List.length_drop] at hlen
  omega

/-- The inner loop run from `j = 0` with fuel `pattern_len` detects
exactly the occurrences of the pattern. -/
theorem innerLoop_occursAt (text pattern : List Char) (i : Nat)
    (hiP : i + pattern.length ≤ text.length) :
    ((innerLoop text pattern i 0 pattern.length).1 = pattern.length ↔
      occursAt text pattern i) := by
  have h := innerLoop_spec text pattern i hiP pattern.length 0 (by omega) (by omega)
  unfold occursAt
  rw [h]
  simp

/-- Invariant of the candidate-offset loop of `string_search` for a
non-empty pattern: run from offset `i` with enough fuel, knowing no
occurrence lies below `i`, it returns -1 when no occurrence exists at
all, and otherwise returns the least occurrence offset. -/
theorem outerLoop_spec (text pattern : List Char) (hp : pattern ≠ []) :
    ∀ fuel i, text.length + 1 ≤ i + fuel →
    (∀ j, j < i → ¬ occursAt text pattern j) →
    ((∀ k, ¬ occursAt text pattern k) → (outerLoop text pattern i fuel).1 = -1) ∧
    ((∃ k, occursAt text pattern k) →
      ∃ m : Nat, (outerLoop text pattern i fuel).1 = (m : Int) ∧
        occursAt text pattern m ∧ ∀ j, j < m → ¬ occursAt text pattern j) := by
  have hP : 0 < pattern.length := List.length_pos.mpr hp
  intro fuel
  induction fuel with
  | zero =>
    intro i hfuel hbelow
    rw [outerLoop]
    refine ⟨fun _ => rfl, ?_⟩
    rintro ⟨k, hk⟩
    have h1 := occursAt_le text pattern k hp hk
    exact absurd hk (hbelow k (by omega))
  | succ fuel ih =>
    intro i hfuel hbelow
    rw [outerLoop]
    by_cases hg : (i : Int) ≤ (text.length : Int) - (pattern.length : Int)
    · have hiP : i + pattern.length ≤ text.length := by omega
      rw [if_pos hg]
      by_cases hm : (innerLoop text pattern i 0 pattern.length).1 = pattern.length
      · rw [if_pos hm]
        have hocc : occursAt text pattern i :=
          (innerLoop_occursAt text pattern i hiP).mp hm
        exact ⟨fun hall => absurd hocc (hall i),
          fun _ => ⟨i, rfl, hocc, hbelow⟩⟩
      · rw [if_neg hm]
        have hni : ¬ occursAt text pattern i :=
          fun hc => hm ((innerLoop_occursAt text pattern i hiP).mpr hc)
        have hbelow2 : ∀ j, j < i + 1 → ¬ occursAt text pattern j := by
          intro j hj
          rcases Nat.lt_or_ge j i with h | h
          · exact hbelow j h
          · have hji : j = i := by omega
            rw [hji]
            exact hni
        obtain ⟨h1, h2⟩ := ih (i + 1) (by omega) hbelow2
        constructor
        · intro hall
          show (outerLoop text pattern (i + 1) fuel).1 = -1
          exact h1 hall
        · intro hex
          show ∃ m : Nat,
            (outerLoop text pattern (i + 1) fuel).1 = (m : Int) ∧
              occursAt text pattern m ∧ ∀ j, j < m → ¬ occursAt text pattern j
          exact h2 hex
    · rw [if_neg hg]
      refine ⟨fun _ => rfl, ?_⟩
      rintro ⟨k, hk⟩
      have h1 := occursAt_le text pattern k hp hk
      rcases Nat.lt_or_ge k i with h | h
      · exact absurd hk (hbelow k h)
      · exfalso
        omega

/-! ## Theorems for the claims -/

/-- C5: for every text and every non-empty pattern, `string_search`
returns the smallest offset at which the pattern matches the text
character for character, and -1 when no such offset exists. -/
theorem string_search_first_match (text pattern : List Char)
    (hp : pattern ≠ []) :
    ((∃ i, occursAt text pattern i) →
      ∃ i : Nat, string_search text pattern = (i : Int) ∧
        occursAt text pattern i ∧ ∀ j, j < i → ¬ occursAt text pattern j) ∧
    ((∀ i, ¬ occursAt text pattern i) → string_search text pattern = -1) := by
  obtain ⟨h1, h2⟩ := outerLoop_spec text pattern hp (text.length + 1) 0
    (by omega) (fun j hj => absurd hj (Nat.not_lt_zero j))
  unfold string_search
  exact ⟨h2, h1⟩

/-- C5 witness: on text `ABAB` and pattern `AB`, `string_search` returns
the least occurrence offset. -/
theorem string_search_first_match_witness :
    ∃ i : Nat, string_search "ABAB".toList "AB".toList = (i : Int) ∧
      occursAt "ABAB".toList "AB".toList i ∧
      ∀ j, j < i → ¬ occursAt "ABAB".toList "AB".toList j :=
  (string_search_first_match "ABAB".toList "AB".toList (by decide)).1
    ⟨0, by decide⟩

/-- C1 counterexample: on the text and pattern hard-coded in `main` of
string_search.c, `string_search` does not return 15 (the pattern
`ABABCAB` already occurs at offset 10). -/
theorem string_search_demo_not_15 :
    string_search "ABABDABACDABABCABCABCABCABC".toList "ABABCAB".toList ≠ 15 := by
  decide

/-- C1 amended: `string_search` on the hard-coded text and pattern
returns 10, and the program prints `Pattern found at index: 10`. -/
theorem string_search_demo_returns_10 :
    string_search "ABABDABACDABABCABCABCABCABC".toList "ABABCAB".toList = 10 ∧
    string_search_main_output = "Pattern found at index: 10" := by
  constructor <;> decide

/-- C2 counterexample: the accumulator of `main` in
fibonacci_recursive.c is not 6764. -/
theorem fib_sum_not_6764 : fib_main_result ≠ 6764 := by decide

/-- C2 amended: `fibonacci` satisfies the stated recurrence, and the sum
of `fibonacci(i)` for `i = 0..19` computed by `main` equals 10945
(not 6764; 6764 is the sum over `i = 0..18`). -/
theorem fib_sum_value :
    fibonacci 0 = 0 ∧ fibonacci 1 = 1 ∧
    (∀ n : Nat, fibonacci (n + 2) = fibonacci (n + 1) + fibonacci n) ∧
    fib_main_result = 10945 :=
  ⟨rfl, rfl, fun _ => rfl, by decide⟩

/-- C3 counterexample: over exact rational arithmetic, `polynomial` on
coefficients `{1, 2, 3, 4}` at `x = 5/2` does not equal 86. -/
theorem polynomial_demo_not_86 : polynomial (5/2) [1, 2, 3, 4] 3 ≠ 86 := by
  simp only [polynomial, polyLoop]
  norm_num

/-- C3 amended: `polynomial` on coefficients `{1, 2, 3, 4}` at `x = 5/2`
equals `1 + 2(5/2) + 3(5/2)^2 + 4(5/2)^3 = 349/4 = 87.25`, so the program
prints 87.25 (not 86.00) to two decimals. -/
theorem polynomial_demo_value :
    polynomial (5/2) [1, 2, 3, 4] 3 = 1 + 2*(5/2) + 3*(5/2)^2 + 4*(5/2)^3 ∧
    polynomial (5/2) [1, 2, 3, 4] 3 = 349/4 := by
  constructor <;> (simp only [polynomial, polyLoop]; norm_num)

/-- C4: on every integer sequence (any length, even or odd, including
the empty one, with `size` the length as `main` passes it),
`sum_array_unoptimized` and `sum_array_optimized` agree, both equal the
arithmetic sum of the elements, and both return 15 on `{1,2,3,4,5}`. -/
theorem sum_array_agree :
    (∀ arr : List Int,
      sum_array_unoptimized arr arr.length = sum_array_optimized arr arr.length ∧
      sum_array_unoptimized arr arr.length = arr.sum) ∧
    sum_array_unoptimized [1, 2, 3, 4, 5] 5 = 15 ∧
    sum_array_optimized [1, 2, 3, 4, 5] 5 = 15 := by
  refine ⟨?_, by decide, by decide⟩
  intro arr
  have hunopt : sum_array_unoptimized arr arr.length = arr.sum := by
    unfold sum_array_unoptimized
    rw [sumLoop_spec arr arr.length 0 0 (by omega)]
    simp
  have hopt : sum_array_optimized arr arr.length = arr.sum := by
    unfold sum_array_optimized
    rw [sumTailLoop_spec arr arr.length
      (sumUnrollLoop arr arr.length 0 0 arr.length).2
      (sumUnrollLoop arr arr.length 0 0 arr.length).1 (by omega)]
    rw [sumUnrollLoop_spec arr arr.length 0 0 (by omega)]
    simp
  exact ⟨hunopt.trans hopt.symm, hunopt⟩

/-- C6: when the pattern is longer than the text, `string_search`
performs no character comparisons (the signed guard `i <= text_len -
pattern_len` is already negative at `i = 0`) and returns -1. -/
theorem string_search_pattern_longer (text pattern : List Char)
    (h : text.length < pattern.length) :
    string_search text pattern = -1 ∧
    string_search_comparisons text pattern = 0 ∧
    (text.length : Int) - (pattern.length : Int) < 0 := by
  have hg : ¬ ((0 : Int) ≤ (text.length : Int) - (pattern.length : Int)) := by
    omega
  unfold string_search string_search_comparisons
  rw [outerLoop]
  simp only [Nat.cast_zero]
  rw [if_neg hg]
  refine ⟨rfl, rfl, by omega⟩

/-- C6 witness at text `AB`, pattern `ABC`. -/
theorem string_search_pattern_longer_witness :
    string_search "AB".toList "ABC".toList = -1 ∧
    string_search_comparisons "AB".toList "ABC".toList = 0 ∧
    ("AB".toList.length : Int) - ("ABC".toList.length : Int) < 0 :=
  string_search_pattern_longer _ _ (by decide)

/-- C7: with an empty pattern, `string_search` returns 0 on every text:
the guard `0 <= text_len` holds, and the inner loop exits immediately
with `j = 0 = pattern_len`. -/
theorem string_search_empty_pattern :
    ∀ text : List Char, string_search text [] = 0 := by
  intro text
  unfold string_search
  rw [outerLoop]
  simp [innerLoop]

/-- C8: on every non-empty integer sequence (with `n` its length, as
`main` passes it), `find_max` returns the greatest element, and on the
hard-coded input of array_operations.c it returns 12. -/
theorem find_max_greatest :
    (∀ arr : List Int, arr ≠ [] →
      find_max arr arr.length ∈ arr ∧
      ∀ x ∈ arr, x ≤ find_max arr arr.length) ∧
    find_max [3, 5, 7, 2, 8, 6, 4, 10, 12, 1] 10 = 12 := by
  refine ⟨?_, by decide⟩
  intro arr hne
  obtain ⟨a, l, rfl⟩ := List.exists_cons_of_ne_nil hne
  obtain ⟨hmem, hmono, hdom⟩ :=
    findMaxLoop_spec (a :: l) (a :: l).length 1 ((a :: l).getD 0 0) (by omega)
  have hd : (a :: l).drop 1 = l := rfl
  have h0 : (a :: l).getD 0 0 = a := rfl
  refine ⟨?_, ?_⟩
  · unfold find_max
    rcases hmem with he | he
    · rw [he, h0]; exact List.mem_cons_self _ _
    · rw [hd] at he; exact List.mem_cons_of_mem _ he
  · intro x hx
    unfold find_max
    rcases List.mem_cons.mp hx with he | he
    · rw [he, ← h0]; exact hmono
    · exact hdom x (by rw [hd]; exact he)

/-- C8 witness at the hard-coded input of array_operations.c. -/
theorem find_max_greatest_witness :
    find_max [3, 5, 7, 2, 8, 6, 4, 10, 12, 1]
        ([3, 5, 7, 2, 8, 6, 4, 10, 12, 1] : List Int).length ∈
      ([3, 5, 7, 2, 8, 6, 4, 10, 12, 1] : List Int) ∧
    ∀ x ∈ ([3, 5, 7, 2, 8, 6, 4, 10, 12, 1] : List Int),
      x ≤ find_max [3, 5, 7, 2, 8, 6, 4, 10, 12, 1]
        ([3, 5, 7, 2, 8, 6, 4, 10, 12, 1] : List Int).length :=
  find_max_greatest.1 _ (by decide)

/-- C9 counterexample: at `a = b = 0` the source `gcd` returns 0, which
is not the greatest integer dividing both inputs, since 1 also divides
both and exceeds 0. -/
theorem gcd_zero_zero_not_greatest :
    ¬ (∀ d : Nat, d ∣ 0 → d ∣ 0 → d ≤ CodeOptimizer.gcd 0 0) := by
  intro h
  have h1 := h 1 (dvd_zero 1) (dvd_zero 1)
  rw [CodeOptimizer.gcd] at h1
  simp at h1

/-- C9 amended: on every pair of non-negative inputs `gcd` divides both,
and whenever the inputs are not both zero it is the greatest integer
dividing both (at `a = b = 0` every integer divides both, so no greatest
common divisor exists and `gcd` returns 0); `gcd 48 18 = 6`. -/
theorem gcd_spec_amended :
    (∀ a b : Nat, CodeOptimizer.gcd a b ∣ a ∧ CodeOptimizer.gcd a b ∣ b) ∧
    (∀ a b : Nat, ¬(a = 0 ∧ b = 0) →
      ∀ d : Nat, d ∣ a → d ∣ b → d ≤ CodeOptimizer.gcd a b) ∧
    CodeOptimizer.gcd 48 18 = 6 := by
  refine ⟨?_, ?_, ?_⟩
  · intro a b
    rw [gcd_eq_natGcd]
    exact ⟨Nat.gcd_dvd_left a b, Nat.gcd_dvd_right a b⟩
  · intro a b hab d hda hdb
    rw [gcd_eq_natGcd]
    have hpos : 0 < Nat.gcd a b := by
      rcases Nat.eq_zero_or_pos (Nat.gcd a b) with hz | hp
      · exact absurd (Nat.gcd_eq_zero_iff.mp hz) hab
      · exact hp
    exact Nat.le_of_dvd hpos (Nat.dvd_gcd hda hdb)
  · rw [gcd_eq_natGcd]
    rfl

/-- C9 witness at the hard-coded input of gcd_algorithm.c: 6 divides
both 48 and 18, and is at most `gcd 48 18` (which equals 6). -/
theorem gcd_spec_amended_witness : (6 : Nat) ≤ CodeOptimizer.gcd 48 18 :=
  gcd_spec_amended.2.1 48 18 (by decide) 6 (by decide) (by decide)

/-- C10: the Euclidean loop of `gcd` terminates within `b + 1` iterations
on every pair of non-negative inputs: the fuelled rendering of the loop
returns (rather than exhausting its budget) and agrees with the total
function `gcd` obtained by well-founded recursion on `b`. -/
theorem gcd_terminates :
    ∀ a b : Nat, gcdFuel (b + 1) a b = some (CodeOptimizer.gcd a b) :=
  fun a b => gcdFuel_correct b a (b + 1) (Nat.lt_succ_self b)

end CodeOptimizer
